import Mathlib

/-!
Verification of the futarigurashi build pipeline.

Strings are modelled as `List Char` (one entry per Unicode code point).
JavaScript numbers that hold integral values (page counts, timestamps in
milliseconds) are modelled as `Int`; `Math.floor` of a quotient of integers
is `Int.fdiv`.  JavaScript `Array.prototype.sort` is stable (ES2019), so the
post sort is modelled by a stable insertion sort.  `Map` objects keep the
insertion position of a key when its value is overwritten, which is modelled
by an association-list upsert that rewrites in place.
-/

set_option autoImplicit false

namespace Futari

/-! ## Identifier normalizer (`slugify` in build-from-markdown / import-wp / writer-server)

The three copies of `slugify` in the repository are textually identical:
`str.trim().replace(/\s+/g,'-').replace(/[^\w぀-ゟ゠-ヿ一-龯-]/g,'')
   .replace(hyphen-runs, '-').slice(0,80) || 'post'`. -/

/-- JavaScript `\s` / `String.prototype.trim` whitespace set. -/
def isWs (c : Char) : Bool :=
  let n := c.toNat
  n == 0x20 || (decide (0x9 ≤ n) && decide (n ≤ 0xd)) || n == 0xa0 || n == 0x1680 ||
  (decide (0x2000 ≤ n) && decide (n ≤ 0x200a)) || n == 0x2028 || n == 0x2029 ||
  n == 0x202f || n == 0x205f || n == 0x3000 || n == 0xfeff

/-- JavaScript `\w` (no `u` flag): ASCII letters, digits, underscore. -/
def isWordChar (c : Char) : Bool :=
  let n := c.toNat
  n == 0x5f || (decide (0x30 ≤ n) && decide (n ≤ 0x39)) ||
  (decide (0x41 ≤ n) && decide (n ≤ 0x5a)) || (decide (0x61 ≤ n) && decide (n ≤ 0x7a))

/-- Characters kept by `replace(/[^\w぀-ゟ゠-ヿ一-龯-]/g,'')`:
word characters, Hiragana, Katakana, CJK Unified Ideographs up to U+9FAF, hyphen. -/
def isKeptChar (c : Char) : Bool :=
  let n := c.toNat
  isWordChar c || (decide (0x3040 ≤ n) && decide (n ≤ 0x309f)) ||
  (decide (0x30a0 ≤ n) && decide (n ≤ 0x30ff)) ||
  (decide (0x4e00 ≤ n) && decide (n ≤ 0x9faf)) || c == '-'

/-- `String.prototype.trim`: strip leading and trailing whitespace. -/
def trimWs (l : List Char) : List Char :=
  ((l.dropWhile isWs).reverse.dropWhile isWs).reverse

/-- `replace(/\s+/g, '-')`: each maximal whitespace run becomes one hyphen.
The flag records whether the previous character was part of a whitespace run. -/
def squashWs : Bool → List Char → List Char
  | _, [] => []
  | prevWs, c :: cs =>
    if isWs c then
      if prevWs then squashWs true cs else '-' :: squashWs true cs
    else c :: squashWs false cs

/-- `replace(hyphen-runs, '-')`: each maximal hyphen run becomes one hyphen. -/
def squashDash : Bool → List Char → List Char
  | _, [] => []
  | prevDash, c :: cs =>
    if c = '-' then
      if prevDash then squashDash true cs else '-' :: squashDash true cs
    else c :: squashDash false cs

/-- `slugify` from the source: trim, whitespace runs to `-`, delete disallowed
characters, collapse `-` runs, truncate to 80, fall back to `"post"`. -/
def slugifyChars (l : List Char) : List Char :=
  let r := (squashDash false ((squashWs false (trimWs l)).filter isKeptChar)).take 80
  if r = [] then "post".data else r

def slugify (s : String) : String :=
  String.mk (slugifyChars s.data)

/-- `categorySlug` from import-wp.js: `slugify(name) || 'category'`.
Since `slugify` never returns the empty string, the fallback is inert. -/
def categorySlug (s : String) : String :=
  if slugify s = "" then "category" else slugify s

example : slugify " Hello  World! " = "Hello-World" := by decide
example : slugify "記事名-2" = "記事名-2" := by decide
example : slugify "   " = "post" := by decide

/-! ### Idempotence of the normalizer -/

/-- `noDD l` holds when `l` has no two adjacent hyphens. -/
def noDD : List Char → Bool
  | a :: b :: rest => (!(a == '-' && b == '-')) && noDD (b :: rest)
  | _ => true

lemma dropWhile_all_false {p : Char → Bool} :
    ∀ {l : List Char}, (∀ c ∈ l, p c = false) → l.dropWhile p = l
  | [], _ => rfl
  | a :: as, h => by
    simp [List.dropWhile, h a (List.mem_cons_self a as)]

lemma trimWs_eq_self {l : List Char} (h : ∀ c ∈ l, isWs c = false) : trimWs l = l := by
  unfold trimWs
  rw [dropWhile_all_false h, dropWhile_all_false, List.reverse_reverse]
  intro c hc
  exact h c (List.mem_reverse.mp hc)

lemma squashWs_eq_self : ∀ {l : List Char}, (∀ c ∈ l, isWs c = false) →
    ∀ b, squashWs b l = l
  | [], _, _ => rfl
  | a :: as, h, b => by
    have ha := h a (List.mem_cons_self a as)
    simp only [squashWs, ha, if_false, Bool.false_eq_true]
    rw [squashWs_eq_self (fun c hc => h c (List.mem_cons_of_mem a hc)) false]

lemma not_ws_squashWs : ∀ (b : Bool) (l : List Char), ∀ c ∈ squashWs b l, isWs c = false
  | _, [], _, hc => by simp [squashWs] at hc
  | b, a :: as, c, hc => by
    by_cases ha : isWs a = true
    · by_cases hb : b = true
      · subst hb
        simp only [squashWs, ha, if_true] at hc
        exact not_ws_squashWs true as c hc
      · replace hb : b = false := by revert hb; cases b <;> simp
        subst hb
        simp only [squashWs, ha, if_true] at hc
        rcases List.mem_cons.mp hc with h1 | h1
        · subst h1; decide
        · exact not_ws_squashWs true as c h1
    · replace ha : isWs a = false := by revert ha; cases isWs a <;> simp
      simp only [squashWs, ha, Bool.false_eq_true, if_false] at hc
      rcases List.mem_cons.mp hc with h1 | h1
      · subst h1; exact ha
      · exact not_ws_squashWs false as c h1

lemma noDD_cons {a : Char} {as : List Char} (h : noDD (a :: as) = true) : noDD as = true := by
  cases as with
  | nil => rfl
  | cons b bs =>
    simp only [noDD, Bool.and_eq_true] at h
    exact h.2

lemma noDD_pair {a b : Char} {bs : List Char} (h : noDD (a :: b :: bs) = true) :
    ¬(a = '-' ∧ b = '-') := by
  simp only [noDD, Bool.and_eq_true, Bool.not_eq_true', Bool.and_eq_false_iff, beq_eq_false_iff_ne]
  at h
  rcases h.1 with h1 | h1 <;> exact fun hab => h1 (by simp [hab.1, hab.2])

lemma noDD_cons_intro {a : Char} {r : List Char} (h : noDD r = true)
    (hh : ¬(a = '-' ∧ r.head? = some '-')) : noDD (a :: r) = true := by
  cases r with
  | nil => rfl
  | cons x xs =>
    simp only [noDD, Bool.and_eq_true, Bool.not_eq_true', Bool.and_eq_false_iff,
      beq_eq_false_iff_ne]
    refine ⟨?_, h⟩
    by_cases hx : x = '-'
    · left; intro ha; exact hh ⟨ha, by simp [hx]⟩
    · right; exact hx

lemma squashDash_fix : ∀ l : List Char, noDD l = true →
    squashDash false l = l ∧ (l.head? ≠ some '-' → squashDash true l = l)
  | [], _ => ⟨rfl, fun _ => rfl⟩
  | a :: as, h => by
    have htail := noDD_cons h
    have IH := squashDash_fix as htail
    by_cases ha : a = '-'
    · subst ha
      constructor
      · show squashDash false ('-' :: as) = '-' :: as
        simp only [squashDash, if_true, Bool.false_eq_true, if_false]
        congr 1
        apply IH.2
        cases as with
        | nil => simp
        | cons x xs =>
          have := noDD_pair h
          simp only [List.head?_cons, ne_eq, Option.some.injEq]
          intro hx
          exact this ⟨rfl, hx⟩
      · intro hcontra
        exact absurd (rfl : ('-' :: as).head? = some '-') hcontra
    · constructor
      · simp only [squashDash, ha, if_false]
        rw [IH.1]
      · intro _
        simp only [squashDash, ha, if_false]
        rw [IH.1]

lemma squashDash_head_true : ∀ l : List Char, (squashDash true l).head? ≠ some '-'
  | [] => by simp [squashDash]
  | a :: as => by
    by_cases ha : a = '-'
    · subst ha
      simp only [squashDash, if_true]
      exact squashDash_head_true as
    · rw [show squashDash true (a :: as) = a :: squashDash false as by
        simp only [squashDash, if_neg ha]]
      simpa using ha

lemma noDD_squashDash : ∀ (b : Bool) (l : List Char), noDD (squashDash b l) = true
  | _, [] => rfl
  | b, a :: as => by
    by_cases ha : a = '-'
    · subst ha
      cases b with
      | true =>
        simp only [squashDash, if_true]
        exact noDD_squashDash true as
      | false =>
        simp only [squashDash, if_true]
        refine noDD_cons_intro (noDD_squashDash true as) ?_
        rintro ⟨-, hhd⟩
        exact squashDash_head_true as hhd
    · simp only [squashDash, ha, if_false]
      refine noDD_cons_intro (noDD_squashDash false as) ?_
      rintro ⟨haa, -⟩
      exact ha haa

lemma mem_squashDash : ∀ {b : Bool} {l : List Char} {c : Char},
    c ∈ squashDash b l → c = '-' ∨ c ∈ l
  | _, [], _, hc => by simp [squashDash] at hc
  | b, a :: as, c, hc => by
    by_cases ha : a = '-'
    · subst ha
      cases b with
      | true =>
        simp only [squashDash, if_true] at hc
        rcases mem_squashDash hc with h1 | h1
        · exact Or.inl h1
        · exact Or.inr (List.mem_cons_of_mem _ h1)
      | false =>
        simp only [squashDash, if_true] at hc
        rcases List.mem_cons.mp hc with h1 | h1
        · exact Or.inl h1
        · rcases mem_squashDash h1 with h2 | h2
          · exact Or.inl h2
          · exact Or.inr (List.mem_cons_of_mem _ h2)
    · simp only [squashDash, ha, if_false] at hc
      rcases List.mem_cons.mp hc with h1 | h1
      · exact Or.inr (h1 ▸ List.mem_cons_self a as)
      · rcases mem_squashDash h1 with h2 | h2
        · exact Or.inl h2
        · exact Or.inr (List.mem_cons_of_mem _ h2)

lemma noDD_take : ∀ (l : List Char), noDD l = true → ∀ n : Nat, noDD (l.take n) = true
  | [], _, n => by simp [noDD]
  | a :: as, h, 0 => rfl
  | a :: as, h, n + 1 => by
    cases as with
    | nil => cases n <;> rfl
    | cons x xs =>
      cases n with
      | zero => rfl
      | succ m =>
        have htail : noDD ((x :: xs).take (m + 1)) = true :=
          noDD_take (x :: xs) (noDD_cons h) (m + 1)
        simp only [List.take_succ_cons]
        refine noDD_cons_intro (by simpa using htail) ?_
        rintro ⟨ha, hx⟩
        simp only [List.take_succ_cons, List.head?_cons, Option.some.injEq] at hx
        exact noDD_pair h ⟨ha, hx⟩

lemma slugifyChars_props (l : List Char) :
    (∀ c ∈ slugifyChars l, isKeptChar c = true ∧ isWs c = false) ∧
    noDD (slugifyChars l) = true ∧ (slugifyChars l).length ≤ 80 ∧ slugifyChars l ≠ [] := by
  unfold slugifyChars
  set mid := (squashWs false (trimWs l)).filter isKeptChar with hmid
  set r := (squashDash false mid).take 80 with hr
  by_cases hre : r = []
  · simp only [hre, if_true]
    refine ⟨?_, by decide, by decide, by decide⟩
    intro c hc
    fin_cases hc <;> exact ⟨by decide, by decide⟩
  · simp only [hre, if_false]
    refine ⟨?_, ?_, ?_, hre⟩
    · intro c hc
      have hc' : c ∈ squashDash false mid := List.mem_of_mem_take hc
      have hmem : c = '-' ∨ c ∈ mid := mem_squashDash hc'
      rcases hmem with h1 | h1
      · subst h1; exact ⟨by decide, by decide⟩
      · rw [hmid] at h1
        have h2 := List.mem_filter.mp h1
        exact ⟨h2.2, not_ws_squashWs false (trimWs l) c h2.1⟩
    · exact noDD_take _ (noDD_squashDash false mid) 80
    · rw [hr]
      calc ((squashDash false mid).take 80).length ≤ 80 := by
            rw [List.length_take]; exact Nat.min_le_left _ _

lemma slugifyChars_fixed {r : List Char}
    (hkept : ∀ c ∈ r, isKeptChar c = true ∧ isWs c = false)
    (hdd : noDD r = true) (hlen : r.length ≤ 80) (hne : r ≠ []) :
    slugifyChars r = r := by
  have hws : ∀ c ∈ r, isWs c = false := fun c hc => (hkept c hc).2
  unfold slugifyChars
  rw [trimWs_eq_self hws, squashWs_eq_self hws false,
    List.filter_eq_self.mpr (fun c hc => (hkept c hc).1),
    (squashDash_fix r hdd).1, List.take_of_length_le hlen]
  simp [hne]

/-- **C8.** The identifier normalizer is idempotent: for every input string,
`slugify (slugify s) = slugify s`.  This covers the identical `slugify`
definitions in build-from-markdown, import-wp.js and writer-server.js. -/
theorem slugify_idempotent : ∀ s : String, slugify (slugify s) = slugify s := by
  intro s
  have base : ∀ l : List Char, slugifyChars (slugifyChars l) = slugifyChars l := by
    intro l
    obtain ⟨hkept, hdd, hlen, hne⟩ := slugifyChars_props l
    exact slugifyChars_fixed hkept hdd hlen hne
  show String.mk (slugifyChars (String.mk (slugifyChars s.data)).data) =
    String.mk (slugifyChars s.data)
  exact congrArg String.mk (base s.data)

/-! ## Paginator totals and slices

`PER_PAGE = 10` throughout the system.  The main listing in both build
scripts computes `totalPages = Math.ceil(postsData.length / PER_PAGE)` with
no minimum; the category listings in import-wp.js compute
`Math.max(1, Math.ceil(catPosts.length / PER_PAGE))`.  For `n : Nat`,
`Math.ceil(n / 10) = (n + 9) / 10` in Nat division. -/

/-- Main-listing page count: `Math.ceil(N / PER_PAGE)` (no minimum). -/
def totalPagesMain (n : Nat) : Nat := (n + 9) / 10

/-- Category-listing page count: `Math.max(1, Math.ceil(N / PER_PAGE))`. -/
def totalPagesCat (n : Nat) : Nat := max 1 ((n + 9) / 10)

/-- `postsData.slice((k-1)*PER_PAGE, k*PER_PAGE)`: the 1-based k-th page. -/
def pageSlice {α : Type} (k : Nat) (l : List α) : List α :=
  (l.drop ((k - 1) * 10)).take 10

/-- **C2 counterexample.** The claim says `totalPages = 1` when `N = 0` for the
main listing as well, but the main listing computes `Math.ceil(0/10) = 0`:
there is no minimum-1 guard on the main listing's page count. -/
theorem totalPagesMain_zero_ne_one : totalPagesMain 0 ≠ 1 ∧ totalPagesMain 0 = 0 := by
  constructor <;> decide

/-- **C2 (amended).** `totalPagesMain` is exactly `ceil(N/10)` (characterized
by `N ≤ 10⬝pages < N + 10`), the category page count carries the minimum-1
guard (`totalPagesCat 0 = 1`) while the main listing does not
(`totalPagesMain 0 = 0`); the two agree for every `N ≥ 1`; `totalPages(20) = 2`;
and page 2 of a 15-item list is exactly items 11–15 (0-based 10–14). -/
theorem totalPages_spec :
    (∀ n : Nat, n ≤ 10 * totalPagesMain n ∧ 10 * totalPagesMain n < n + 10) ∧
    (∀ n : Nat, totalPagesCat (n + 1) = totalPagesMain (n + 1)) ∧
    totalPagesCat 0 = 1 ∧ totalPagesMain 0 = 0 ∧ totalPagesMain 20 = 2 ∧
    pageSlice 2 (List.range 15) = [10, 11, 12, 13, 14] := by
  refine ⟨?_, ?_, by decide, by decide, by decide, by decide⟩
  · intro n
    unfold totalPagesMain
    omega
  · intro n
    unfold totalPagesCat totalPagesMain
    have h : 1 ≤ (n + 1 + 9) / 10 := by omega
    exact Nat.max_eq_right h

/-! ## Windowed page-number display (`getPageNumbers` in both build scripts)

The two copies of `getPageNumbers` (build-from-markdown and import-wp.js) are
textually identical.  An entry is either a page number or the ellipsis
marker `'…'`.  The source's `left`/`right` locals are inlined below; the
trailing `if (total > 1) out.push(total)` always fires in the `else` branch
and is modelled as an unconditional append. -/

inductive PageEntry where
  | num (n : Int)
  | dots
deriving DecidableEq, Repr

/-- `for (let i = left; i <= right; i++)` collected into a list. -/
def intRange (lo hi : Int) : List Int :=
  (List.range (hi + 1 - lo).toNat).map (fun i => lo + Int.ofNat i)

/-- `getPageNumbers(current, total)` with `windowSize = 2`. -/
def getPageNumbers (current total : Int) : List PageEntry :=
  if total ≤ 1 then [PageEntry.num 1]
  else
    [PageEntry.num 1] ++
    (if 2 < max 2 (current - 2) then [PageEntry.dots] else []) ++
    (intRange (max 2 (current - 2)) (min (total - 1) (current + 2))).map PageEntry.num ++
    (if min (total - 1) (current + 2) < total - 1 then [PageEntry.dots] else []) ++
    [PageEntry.num total]

/-- Checks a window tail against the previous page number: adjacent numbers
must increase by exactly 1, an ellipsis must stand for a real gap (next
number at least `prev + 2`), and an ellipsis may not end the list or touch
another ellipsis. -/
def wfFrom : Int → List PageEntry → Bool
  | _, [] => true
  | prev, PageEntry.num b :: rest => (b == prev + 1) && wfFrom b rest
  | prev, PageEntry.dots :: PageEntry.num b :: rest => decide (prev + 2 ≤ b) && wfFrom b rest
  | _, [PageEntry.dots] => false
  | _, PageEntry.dots :: PageEntry.dots :: _ => false

/-- A well-formed window starts with a number and chains by `wfFrom`:
consecutive numbers are consecutive pages, and each ellipsis marks exactly
one elided gap of at least one page. -/
def wellFormedWindow : List PageEntry → Bool
  | PageEntry.num a :: rest => wfFrom a rest
  | _ => false

lemma intRange_nil {lo hi : Int} (h : hi < lo) : intRange lo hi = [] := by
  unfold intRange
  rw [show (hi + 1 - lo).toNat = 0 by omega]
  rfl

lemma intRange_cons {lo hi : Int} (h : lo ≤ hi) :
    intRange lo hi = lo :: intRange (lo + 1) hi := by
  unfold intRange
  rw [show (hi + 1 - lo).toNat = (hi + 1 - (lo + 1)).toNat + 1 by omega,
    List.range_succ_eq_map, List.map_cons, List.map_map]
  refine congrArg₂ List.cons (by simp) ?_
  apply List.map_congr_left
  intro i _
  simp only [Function.comp_apply, Int.ofNat_eq_coe]
  push_cast
  ring

lemma mem_intRange {lo hi p : Int} : p ∈ intRange lo hi ↔ lo ≤ p ∧ p ≤ hi := by
  unfold intRange
  simp only [List.mem_map, List.mem_range, Int.ofNat_eq_coe]
  constructor
  · rintro ⟨i, hi', rfl⟩
    omega
  · rintro ⟨h1, h2⟩
    exact ⟨(p - lo).toNat, by omega, by omega⟩

lemma wfFrom_range : ∀ (n : Nat) (lo hi : Int) (rest : List PageEntry),
    (hi + 1 - lo).toNat = n → lo ≤ hi + 1 →
    wfFrom (lo - 1) ((intRange lo hi).map PageEntry.num ++ rest) = wfFrom hi rest := by
  intro n
  induction n with
  | zero =>
    intro lo hi rest hn hle
    rw [intRange_nil (by omega), show lo - 1 = hi by omega]
    rfl
  | succ m IH =>
    intro lo hi rest hn hle
    have hlohi : lo ≤ hi := by omega
    rw [intRange_cons hlohi]
    simp only [List.map_cons, List.cons_append]
    show ((lo == lo - 1 + 1) && wfFrom lo ((intRange (lo + 1) hi).map PageEntry.num ++ rest))
      = wfFrom hi rest
    rw [show (lo == lo - 1 + 1) = true by simp, Bool.true_and]
    have := IH (lo + 1) hi rest (by omega) (by omega)
    simpa using this

lemma wfFrom_tail (R T : Int) (h : R ≤ T - 1) :
    wfFrom R ((if R < T - 1 then [PageEntry.dots] else []) ++ [PageEntry.num T]) = true := by
  by_cases hd : R < T - 1
  · rw [if_pos hd]
    have hu : wfFrom R ([PageEntry.dots] ++ [PageEntry.num T])
        = (decide (R + 2 ≤ T) && wfFrom T []) := rfl
    rw [hu]
    simp only [wfFrom, Bool.and_true, decide_eq_true_eq]
    omega
  · rw [if_neg hd]
    have hu : wfFrom R ([] ++ [PageEntry.num T]) = ((T == R + 1) && wfFrom T []) := rfl
    rw [hu]
    simp only [wfFrom, Bool.and_true, beq_iff_eq]
    omega

/-- **C9.** The page-number window: `[1]` whenever `T ≤ 1`; for `T ≥ 2` it
contains page 1, page `T`, and every page within radius 2 of the current
page `c`; for a valid current page (`1 ≤ c ≤ T`) the window is well formed
(numbers strictly ascend, adjacent numbers are consecutive, each ellipsis
marks exactly one elided gap, no ellipsis at the ends or doubled); and the
two windows the spec pins down come out exactly as stated. -/
theorem getPageNumbers_spec :
    (∀ c T : Int, T ≤ 1 → getPageNumbers c T = [PageEntry.num 1]) ∧
    (∀ c T : Int, 2 ≤ T →
      PageEntry.num 1 ∈ getPageNumbers c T ∧ PageEntry.num T ∈ getPageNumbers c T) ∧
    (∀ c T p : Int, 2 ≤ T → 1 ≤ p → p ≤ T → c - 2 ≤ p → p ≤ c + 2 →
      PageEntry.num p ∈ getPageNumbers c T) ∧
    (∀ c T : Int, 2 ≤ T → 1 ≤ c → c ≤ T →
      wellFormedWindow (getPageNumbers c T) = true) ∧
    getPageNumbers 1 10 = [PageEntry.num 1, PageEntry.num 2, PageEntry.num 3,
      PageEntry.dots, PageEntry.num 10] ∧
    getPageNumbers 5 10 = [PageEntry.num 1, PageEntry.dots, PageEntry.num 3,
      PageEntry.num 4, PageEntry.num 5, PageEntry.num 6, PageEntry.num 7,
      PageEntry.dots, PageEntry.num 10] := by
  refine ⟨?_, ?_, ?_, ?_, by decide, by decide⟩
  · intro c T h
    rw [getPageNumbers, if_pos h]
  · intro c T h2
    rw [getPageNumbers, if_neg (by omega)]
    constructor <;> simp
  · intro c T p h2 hp1 hpT hr1 hr2
    rw [getPageNumbers, if_neg (by omega)]
    by_cases hq1 : p = 1
    · subst hq1; simp
    by_cases hqT : p = T
    · subst hqT; simp
    have hmem : p ∈ intRange (max 2 (c - 2)) (min (T - 1) (c + 2)) := by
      rw [mem_intRange]
      exact ⟨max_le (by omega) (by omega), le_min (by omega) (by omega)⟩
    have hmap : PageEntry.num p ∈ (intRange (max 2 (c - 2)) (min (T - 1) (c + 2))).map
        PageEntry.num := List.mem_map_of_mem _ hmem
    simp only [List.mem_append]
    tauto
  · intro c T h2 hc1 hcT
    rw [getPageNumbers, if_neg (by omega)]
    have hL1 : (2 : Int) ≤ max 2 (c - 2) := le_max_left _ _
    have hL3 : max 2 (c - 2) = 2 ∨ max 2 (c - 2) = c - 2 := max_choice _ _
    have hR1 : min (T - 1) (c + 2) ≤ T - 1 := min_le_left _ _
    have hR2 : min (T - 1) (c + 2) ≤ c + 2 := min_le_right _ _
    have hR3 : min (T - 1) (c + 2) = T - 1 ∨ min (T - 1) (c + 2) = c + 2 := min_choice _ _
    set L := max 2 (c - 2) with hLdef
    set R := min (T - 1) (c + 2) with hRdef
    by_cases hD1 : 2 < L
    · have hLR : L ≤ R := by rcases hL3 with h | h <;> rcases hR3 with h' | h' <;> omega
      rw [if_pos hD1, intRange_cons hLR]
      simp only [List.map_cons, List.cons_append, List.singleton_append, List.nil_append]
      simp only [wellFormedWindow, wfFrom, Bool.and_eq_true, decide_eq_true_eq]
      refine ⟨by omega, ?_⟩
      have hrange := wfFrom_range ((R + 1 - (L + 1)).toNat) (L + 1) R
        ((if R < T - 1 then [PageEntry.dots] else []) ++ [PageEntry.num T]) rfl (by omega)
      simp only [add_sub_cancel_right] at hrange
      rw [List.append_assoc, hrange]
      exact wfFrom_tail R T (by omega)
    · have hL2' : L = 2 := by omega
      rw [if_neg hD1]
      by_cases hLR : L ≤ R
      · simp only [List.nil_append, List.singleton_append, List.cons_append]
        simp only [wellFormedWindow]
        have hrange := wfFrom_range ((R + 1 - L).toNat) L R
          ((if R < T - 1 then [PageEntry.dots] else []) ++ [PageEntry.num T]) rfl (by omega)
        rw [show L - 1 = 1 by omega] at hrange
        rw [List.append_assoc, hrange]
        exact wfFrom_tail R T (by omega)
      · have hT : T = 2 := by rcases hR3 with h | h <;> omega
        have hRv : R = 1 := by rcases hR3 with h | h <;> omega
        rw [intRange_nil (by omega), if_neg (by omega : ¬ R < T - 1)]
        subst hT
        decide

/-- Witness for `getPageNumbers_spec` at concrete inputs. -/
theorem getPageNumbers_spec_witness :
    getPageNumbers 7 1 = [PageEntry.num 1] ∧
    PageEntry.num 10 ∈ getPageNumbers 5 10 ∧
    PageEntry.num 6 ∈ getPageNumbers 5 10 ∧
    wellFormedWindow (getPageNumbers 5 10) = true :=
  ⟨getPageNumbers_spec.1 7 1 (by decide),
   (getPageNumbers_spec.2.1 5 10 (by decide)).2,
   getPageNumbers_spec.2.2.1 5 10 6 (by decide) (by decide) (by decide) (by decide) (by decide),
   getPageNumbers_spec.2.2.2.1 5 10 (by decide) (by decide) (by decide)⟩

/-! ## Post reconciler (`main` in build-from-markdown)

Date strings are modelled as already-parsed UTC timestamps (`Int`
milliseconds); malformed date strings are out of scope.  `formatDateYMD`
keeps only the calendar date, so its sort key is the timestamp truncated to
midnight UTC.  `meta.date || today` defaults a missing date to the current
day; `meta.title || slug` defaults a missing title to the file slug.
`new Map(...)` keyed by slug overwrites values in place and appends fresh
keys; the final `sort` is stable on the `date` key (descending). -/

/-- `formatDateRel(dateStr)`: whole 30-day months between the clock `now`
and the post date, rendered as a relative-time phrase. -/
def formatDateRel (now d : Int) : String :=
  let months := (now - d).fdiv (30 * 24 * 60 * 60 * 1000)
  if months < 1 then "recently"
  else if months < 12 then toString months ++ " months ago"
  else
    let years := months.fdiv 12
    toString years ++ " year" ++ (if 1 < years then "s" else "") ++ " ago"

/-- `formatDateYMD` as a timestamp: truncation to the UTC day. -/
def dateYMD (t : Int) : Int := 86400000 * t.fdiv 86400000

/-- One record of `data/posts.json`. -/
structure Post where
  slug : String
  title : String
  date : Int
  dateRel : String
  categories : List String
  excerpt : String
deriving DecidableEq, Repr

/-- One fresh Markdown source document (frontmatter already parsed). -/
structure Doc where
  slug : String
  draft : Bool
  title : Option String
  date : Option Int
  categories : List String
  excerpt : String
deriving DecidableEq, Repr

/-- The record stored in `bySlug` for a fresh non-draft document. -/
def mkRecord (now : Int) (d : Doc) : Post :=
  let t := d.date.getD (dateYMD now)
  { slug := d.slug
    title := d.title.getD d.slug
    date := dateYMD t
    dateRel := formatDateRel now t
    categories := d.categories
    excerpt := d.excerpt }

/-- `Map.prototype.set` keyed by slug: overwrite in place, else append. -/
def upsertPost (l : List Post) (p : Post) : List Post :=
  if l.any (fun q => q.slug == p.slug) then
    l.map (fun q => if q.slug == p.slug then p else q)
  else l ++ [p]

/-- Stable insertion into a date-descending list: a newly inserted record
goes after every record with date ≥ its own, modelling the stable
`sort((a, b) => new Date(b.date) - new Date(a.date))`. -/
def insertDesc (p : Post) : List Post → List Post
  | [] => [p]
  | q :: qs => if p.date ≤ q.date then q :: insertDesc p qs else p :: q :: qs

def sortPosts (l : List Post) : List Post :=
  l.foldl (fun acc p => insertDesc p acc) []

/-- One fresh-document step: `if (meta.draft) continue` else upsert. -/
def stepDoc (now : Int) (acc : List Post) (d : Doc) : List Post :=
  if d.draft then acc else upsertPost acc (mkRecord now d)

/-- The reconciler: persisted entries keyed by slug, fresh documents applied
in directory order, then the stable date-descending sort. -/
def reconcile (persisted : List Post) (docs : List Doc) (now : Int) : List Post :=
  sortPosts (docs.foldl (stepDoc now) (persisted.foldl upsertPost []))

/-- A persisted non-draft post with identifier `a`. -/
def pExA : Post :=
  { slug := "a", title := "A", date := 0, dateRel := "recently", categories := [], excerpt := "" }

/-- A fresh source document with identifier `a` and `draft: true`. -/
def dExADraft : Doc :=
  { slug := "a", draft := true, title := some "A2", date := some 0,
    categories := [], excerpt := "" }

/-- **C1 counterexample.** A fresh draft document whose identifier matches a
persisted non-draft entry does not expunge that identifier: the stale
persisted entry survives in the canonical list, so an entry with the draft
document's identifier does appear. -/
theorem draft_slug_still_present :
    reconcile [pExA] [dExADraft] 0 = [pExA] ∧
    "a" ∈ (reconcile [pExA] [dExADraft] 0).map Post.slug := by
  constructor <;> decide

lemma mem_insertDesc {q p : Post} : ∀ {l : List Post}, q ∈ insertDesc p l ↔ q = p ∨ q ∈ l
  | [] => by simp [insertDesc]
  | r :: rs => by
    unfold insertDesc
    by_cases h : p.date ≤ r.date
    · rw [if_pos h]
      simp only [List.mem_cons, mem_insertDesc]
      tauto
    · rw [if_neg h]
      simp only [List.mem_cons]

lemma mem_foldl_insert {q : Post} :
    ∀ {l : List Post} {acc : List Post},
      q ∈ l.foldl (fun acc p => insertDesc p acc) acc ↔ q ∈ acc ∨ q ∈ l
  | [], acc => by simp
  | p :: ps, acc => by
    simp only [List.foldl_cons, List.mem_cons]
    rw [mem_foldl_insert, mem_insertDesc]
    tauto

lemma mem_sortPosts {q : Post} {l : List Post} : q ∈ sortPosts l ↔ q ∈ l := by
  unfold sortPosts
  rw [mem_foldl_insert]
  simp

lemma mem_upsertPost {q p : Post} {l : List Post} (h : q ∈ upsertPost l p) :
    q = p ∨ q ∈ l := by
  unfold upsertPost at h
  by_cases hc : l.any (fun r => r.slug == p.slug) = true
  · rw [if_pos hc] at h
    obtain ⟨r, hr, hrq⟩ := List.mem_map.mp h
    by_cases hs : r.slug == p.slug
    · rw [if_pos hs] at hrq
      exact Or.inl hrq.symm
    · rw [if_neg hs] at hrq
      exact Or.inr (hrq ▸ hr)
  · rw [if_neg hc] at h
    rcases List.mem_append.mp h with h1 | h1
    · exact Or.inr h1
    · exact Or.inl (List.mem_singleton.mp h1)

lemma foldl_stepDoc_filter (now : Int) :
    ∀ (docs : List Doc) (acc : List Post),
      docs.foldl (stepDoc now) acc
        = (docs.filter (fun d => !d.draft)).foldl (stepDoc now) acc
  | [], acc => rfl
  | d :: ds, acc => by
    by_cases hd : d.draft = true
    · rw [show (d :: ds).filter (fun d => !d.draft) = ds.filter (fun d => !d.draft) by
        simp [List.filter, hd]]
      rw [List.foldl_cons, show stepDoc now acc d = acc by simp [stepDoc, hd]]
      exact foldl_stepDoc_filter now ds acc
    · rw [show (d :: ds).filter (fun d => !d.draft)
          = d :: ds.filter (fun d => !d.draft) by simp [List.filter, hd]]
      rw [List.foldl_cons, List.foldl_cons]
      exact foldl_stepDoc_filter now ds _

lemma slug_free_foldl (now : Int) (s : String) :
    ∀ (docs : List Doc) (acc : List Post),
      (∀ q ∈ acc, q.slug ≠ s) → (∀ d ∈ docs, d.slug = s → d.draft = true) →
      ∀ q ∈ docs.foldl (stepDoc now) acc, q.slug ≠ s
  | [], acc, hacc, _ => hacc
  | d :: ds, acc, hacc, hdocs => by
    rw [List.foldl_cons]
    apply slug_free_foldl now s ds
    · intro q hq
      unfold stepDoc at hq
      by_cases hd : d.draft = true
      · rw [if_pos hd] at hq
        exact hacc q hq
      · rw [if_neg hd] at hq
        rcases mem_upsertPost hq with h1 | h1
        · subst h1
          show (mkRecord now d).slug ≠ s
          intro hcontra
          have : d.slug = s := hcontra
          exact hd (hdocs d (List.mem_cons_self d ds) this)
        · exact hacc q h1
    · intro e he hes
      exact hdocs e (List.mem_cons_of_mem d he) hes

/-- **C1 (amended).** A fresh draft document never contributes its own
record: removing every draft document from the input changes nothing, and an
identifier carried only by draft documents and absent from the persisted
list is absent from the canonical list.  However (see the counterexample) a
previously-persisted entry with the same identifier as a draft simply stays. -/
theorem draft_docs_are_noops :
    (∀ (persisted : List Post) (docs : List Doc) (now : Int),
      reconcile persisted docs now
        = reconcile persisted (docs.filter (fun d => !d.draft)) now) ∧
    (∀ (persisted : List Post) (docs : List Doc) (now : Int) (s : String),
      (∀ q ∈ persisted, q.slug ≠ s) → (∀ d ∈ docs, d.slug = s → d.draft = true) →
      s ∉ (reconcile persisted docs now).map Post.slug) := by
  constructor
  · intro persisted docs now
    unfold reconcile
    rw [foldl_stepDoc_filter]
  · intro persisted docs now s hpers hdocs hmem
    obtain ⟨q, hq, hqs⟩ := List.mem_map.mp hmem
    unfold reconcile at hq
    rw [mem_sortPosts] at hq
    have hinit : ∀ q ∈ persisted.foldl upsertPost [], q.slug ≠ s := by
      have general : ∀ (l : List Post) (acc : List Post),
          (∀ q ∈ acc, q.slug ≠ s) → (∀ q ∈ l, q.slug ≠ s) →
          ∀ q ∈ l.foldl upsertPost acc, q.slug ≠ s := by
        intro l
        induction l with
        | nil =>
          intro acc ha _ q hq
          exact ha q hq
        | cons p ps IH =>
          intro acc ha hl q hq
          rw [List.foldl_cons] at hq
          refine IH (upsertPost acc p) ?_ (fun r hr => hl r (List.mem_cons_of_mem p hr)) q hq
          intro r hr
          rcases mem_upsertPost hr with h1 | h1
          · exact h1 ▸ hl p (List.mem_cons_self p ps)
          · exact ha r h1
      exact general persisted [] (by simp) hpers
    exact slug_free_foldl now s docs _ hinit hdocs q hq hqs

/-- Witness for `draft_docs_are_noops` at concrete inputs. -/
theorem draft_docs_are_noops_witness :
    reconcile [pExA] [dExADraft] 0
      = reconcile [pExA] ([dExADraft].filter (fun d => !d.draft)) 0 ∧
    "b" ∉ (reconcile [pExA]
      [{ dExADraft with slug := "b" }] 0).map Post.slug :=
  ⟨draft_docs_are_noops.1 [pExA] [dExADraft] 0,
   draft_docs_are_noops.2 [pExA] [{ dExADraft with slug := "b" }] 0 "b"
    (by decide) (by decide)⟩

/-! ### Determinism of the reconciler -/

/-- Forget the display-relative date, keeping every other field. -/
def eraseRel (p : Post) : Post := { p with dateRel := "" }

/-- A fresh non-draft document with an explicit date. -/
def dExFresh : Doc :=
  { slug := "x", draft := false, title := some "X", date := some 0,
    categories := [], excerpt := "" }

/-- **C7 counterexample.** Two runs over the same persisted catalog and the
same fresh documents, 40 months of wall-clock time apart, produce different
canonical lists: the derived `dateRel` display field depends on the clock
(`"recently"` vs `"3 years ago"`). -/
theorem reconcile_clock_sensitive :
    reconcile [] [dExFresh] 0 ≠ reconcile [] [dExFresh] (40 * 2592000000) := by decide

lemma eraseRel_slug (p : Post) : (eraseRel p).slug = p.slug := rfl

lemma eraseRel_date (p : Post) : (eraseRel p).date = p.date := rfl

lemma any_slug_congr : ∀ {l1 l2 : List Post}, l1.map eraseRel = l2.map eraseRel →
    ∀ s : String, (l1.any fun q => q.slug == s) = (l2.any fun q => q.slug == s)
  | [], [], _, _ => rfl
  | [], _ :: _, h, _ => by simp at h
  | _ :: _, [], h, _ => by simp at h
  | q1 :: t1, q2 :: t2, h, s => by
    simp only [List.map_cons, List.cons.injEq] at h
    have hs : q1.slug = q2.slug := by
      simpa [eraseRel_slug] using congrArg Post.slug h.1
    simp only [List.any_cons, hs, any_slug_congr h.2 s]

lemma replace_congr : ∀ {l1 l2 : List Post} (p1 p2 : Post) (s : String),
    l1.map eraseRel = l2.map eraseRel → eraseRel p1 = eraseRel p2 →
    (l1.map fun q => if q.slug == s then p1 else q).map eraseRel
      = (l2.map fun q => if q.slug == s then p2 else q).map eraseRel
  | [], [], _, _, _, _, _ => rfl
  | [], _ :: _, _, _, _, h, _ => by simp at h
  | _ :: _, [], _, _, _, h, _ => by simp at h
  | q1 :: t1, q2 :: t2, p1, p2, s, h, hp => by
    simp only [List.map_cons, List.cons.injEq] at h ⊢
    have hs : q1.slug = q2.slug := by
      simpa [eraseRel_slug] using congrArg Post.slug h.1
    refine ⟨?_, replace_congr p1 p2 s h.2 hp⟩
    by_cases hq : (q1.slug == s) = true
    · rw [if_pos hq, if_pos (by rw [← hs]; exact hq)]
      exact hp
    · rw [if_neg hq, if_neg (by rw [← hs]; exact hq)]
      exact h.1

lemma upsert_congr {l1 l2 : List Post} {p1 p2 : Post}
    (h : l1.map eraseRel = l2.map eraseRel) (hp : eraseRel p1 = eraseRel p2) :
    (upsertPost l1 p1).map eraseRel = (upsertPost l2 p2).map eraseRel := by
  have hps : p1.slug = p2.slug := by
    simpa [eraseRel_slug] using congrArg Post.slug hp
  unfold upsertPost
  rw [← hps, ← any_slug_congr h p1.slug]
  by_cases hc : (l1.any fun q => q.slug == p1.slug) = true
  · rw [if_pos hc, if_pos hc]
    exact replace_congr p1 p2 p1.slug h hp
  · rw [if_neg hc, if_neg hc]
    simp only [List.map_append, List.map_cons, List.map_nil, h, hp]

lemma mkRecord_congr {d : Doc} (hd : d.date.isSome = true) (now1 now2 : Int) :
    eraseRel (mkRecord now1 d) = eraseRel (mkRecord now2 d) := by
  obtain ⟨t, ht⟩ := Option.isSome_iff_exists.mp hd
  unfold mkRecord eraseRel
  simp [ht]

lemma foldl_step_congr (now1 now2 : Int) :
    ∀ (docs : List Doc), (∀ d ∈ docs, d.date.isSome = true) →
    ∀ {acc1 acc2 : List Post}, acc1.map eraseRel = acc2.map eraseRel →
    (docs.foldl (stepDoc now1) acc1).map eraseRel
      = (docs.foldl (stepDoc now2) acc2).map eraseRel
  | [], _, _, _, h => h
  | d :: ds, hdocs, acc1, acc2, h => by
    rw [List.foldl_cons, List.foldl_cons]
    apply foldl_step_congr now1 now2 ds (fun e he => hdocs e (List.mem_cons_of_mem d he))
    unfold stepDoc
    by_cases hd : d.draft = true
    · rw [if_pos hd, if_pos hd]
      exact h
    · rw [if_neg hd, if_neg hd]
      exact upsert_congr h (mkRecord_congr (hdocs d (List.mem_cons_self d ds)) now1 now2)

lemma insertDesc_congr : ∀ {l1 l2 : List Post} {p1 p2 : Post},
    l1.map eraseRel = l2.map eraseRel → eraseRel p1 = eraseRel p2 →
    (insertDesc p1 l1).map eraseRel = (insertDesc p2 l2).map eraseRel
  | [], [], _, _, _, hp => by simp [insertDesc, hp]
  | [], _ :: _, _, _, h, _ => by simp at h
  | _ :: _, [], _, _, h, _ => by simp at h
  | q1 :: t1, q2 :: t2, p1, p2, h, hp => by
    simp only [List.map_cons, List.cons.injEq] at h
    have hpd : p1.date = p2.date := by
      simpa [eraseRel_date] using congrArg Post.date hp
    have hqd : q1.date = q2.date := by
      simpa [eraseRel_date] using congrArg Post.date h.1
    unfold insertDesc
    by_cases hc : p1.date ≤ q1.date
    · rw [if_pos hc, if_pos (by rw [← hpd, ← hqd]; exact hc)]
      simp only [List.map_cons, List.cons.injEq]
      exact ⟨h.1, insertDesc_congr h.2 hp⟩
    · rw [if_neg hc, if_neg (by rw [← hpd, ← hqd]; exact hc)]
      simp only [List.map_cons, List.cons.injEq]
      exact ⟨hp, h.1, h.2⟩

lemma sortPosts_congr {l1 l2 : List Post}
    (h : l1.map eraseRel = l2.map eraseRel) :
    (sortPosts l1).map eraseRel = (sortPosts l2).map eraseRel := by
  unfold sortPosts
  suffices general : ∀ (l1 l2 : List Post) (acc1 acc2 : List Post),
      l1.map eraseRel = l2.map eraseRel → acc1.map eraseRel = acc2.map eraseRel →
      (l1.foldl (fun acc p => insertDesc p acc) acc1).map eraseRel
        = (l2.foldl (fun acc p => insertDesc p acc) acc2).map eraseRel by
    exact general l1 l2 [] [] h rfl
  intro l1
  induction l1 with
  | nil =>
    intro l2 acc1 acc2 hl hacc
    have : l2 = [] := by
      cases l2 with
      | nil => rfl
      | cons _ _ => simp at hl
    subst this
    exact hacc
  | cons p ps IH =>
    intro l2 acc1 acc2 hl hacc
    cases l2 with
    | nil => simp at hl
    | cons q qs =>
      simp only [List.map_cons, List.cons.injEq] at hl
      rw [List.foldl_cons, List.foldl_cons]
      exact IH qs _ _ hl.2 (insertDesc_congr hacc hl.1)

/-- **C7 (amended).** For a fixed persisted catalog and fixed fresh documents
that all carry an explicit date, two runs agree on every field of every
record of the canonical list except the clock-derived `dateRel` display
field (and full equality holds when the two runs share the same clock
reading, since the pipeline is a pure function of catalog, documents and
clock).  The counterexample shows `dateRel` itself does vary with the clock,
and a document without an explicit date would also receive the clock's day
as its `date`. -/
theorem reconcile_deterministic_up_to_clock :
    ∀ (persisted : List Post) (docs : List Doc) (now1 now2 : Int),
      (∀ d ∈ docs, d.date.isSome = true) →
      (reconcile persisted docs now1).map eraseRel
        = (reconcile persisted docs now2).map eraseRel := by
  intro persisted docs now1 now2 hdocs
  unfold reconcile
  exact sortPosts_congr (foldl_step_congr now1 now2 docs hdocs rfl)

/-- Witness for `reconcile_deterministic_up_to_clock` at concrete inputs. -/
theorem reconcile_deterministic_up_to_clock_witness :
    (reconcile [pExA] [dExFresh] 0).map eraseRel
      = (reconcile [pExA] [dExFresh] (40 * 2592000000)).map eraseRel :=
  reconcile_deterministic_up_to_clock [pExA] [dExFresh] 0 (40 * 2592000000) (by decide)

/-! ## Category tree builder (import-wp.js)

`catByNicename` is an insertion-ordered map nicename → `{name, parentNicename}`;
an empty parent string becomes null and entries with an empty name are
skipped.  The recursive traversals (`addCategoryWithPath`,
`getDescendantNames`) have unbounded recursion depth in the source, so they
are modelled with an explicit depth budget (`fuel`): for
`getDescendantNames` exhausting every budget is exactly the source's
infinite recursion. -/

structure CatInfo where
  name : String
  parentNicename : Option String
deriving DecidableEq, Repr

/-- `Map.prototype.set`: overwrite the value in place, else append. -/
def upsertCat (m : List (String × CatInfo)) (k : String) (v : CatInfo) :
    List (String × CatInfo) :=
  if m.any (fun e => e.1 == k) then
    m.map (fun e => if e.1 == k then (k, v) else e)
  else m ++ [(k, v)]

/-- Build `catByNicename` from raw (nicename, name, parent) triples. -/
def buildCatMap (raw : List (String × String × String)) : List (String × CatInfo) :=
  raw.foldl
    (fun m t =>
      if t.2.1 = "" then m
      else upsertCat m t.1
        { name := t.2.1, parentNicename := if t.2.2 = "" then none else some t.2.2 })
    []

/-- `catByNicename.get(k)`. -/
def lookupCat (m : List (String × CatInfo)) (k : String) : Option CatInfo :=
  (m.find? (fun e => e.1 == k)).map Prod.snd

/-- `topLevelNicenames`: entries whose `parentNicename` is falsy. -/
def topLevelNicenames (m : List (String × CatInfo)) : List String :=
  (m.filter (fun e => e.2.parentNicename.isNone)).map Prod.fst

/-- JS default string comparison: lexicographic by code unit (equal to
code-point order on the BMP strings this site uses). -/
def jsCharsLe : List Char → List Char → Bool
  | [], _ => true
  | _ :: _, [] => false
  | a :: as, b :: bs =>
    if a.toNat < b.toNat then true
    else if b.toNat < a.toNat then false
    else jsCharsLe as bs

def jsStrLe (a b : String) : Bool := jsCharsLe a.data b.data

/-- One step of the JS default ascending string sort (insertion sort is
extensionally the stable sort the engine performs). -/
def insertSorted (s : String) : List String → List String
  | [] => [s]
  | t :: ts => if jsStrLe t s then t :: insertSorted s ts else s :: t :: ts

def sortStrings (l : List String) : List String :=
  l.foldl (fun acc s => insertSorted s acc) []

/-- `topLevelCats`: names of root entries, minus empty names and
`'Uncategorized'`, sorted. -/
def topLevelCats (m : List (String × CatInfo)) : List String :=
  sortStrings
    (((topLevelNicenames m).map (fun n => ((lookupCat m n).map CatInfo.name).getD ""))
      |>.filter (fun name => !(name == "") && !(name == "Uncategorized")))

def upsertStr (l : List (String × String)) (k v : String) : List (String × String) :=
  if l.any (fun e => e.1 == k) then
    l.map (fun e => if e.1 == k then (k, v) else e)
  else l ++ [(k, v)]

def lookupStr (l : List (String × String)) (k : String) : Option String :=
  (l.find? (fun e => e.1 == k)).map Prod.snd

/-- `nameToNicename`: name → nicename, last writer wins. -/
def nameToNicename (m : List (String × CatInfo)) : List (String × String) :=
  m.foldl (fun acc e => if e.2.name = "" then acc else upsertStr acc e.2.name e.1) []

/-- `getDirectChildren(parentNicename)`. -/
def getDirectChildren (m : List (String × CatInfo)) (parent : String) :
    List (String × CatInfo) :=
  m.filter (fun e => e.2.parentNicename == some parent)

/-- One entry of `allCategoriesWithSlug`. -/
structure CatEntry where
  nicename : String
  name : String
  slug : String
deriving DecidableEq, Repr

/-- `Array.prototype.join('-')` over already-computed slugs. -/
def joinDashChars : List (List Char) → List Char
  | [] => []
  | [x] => x
  | x :: y :: rest => x ++ '-' :: joinDashChars (y :: rest)

def joinDash (l : List String) : String :=
  String.mk (joinDashChars (l.map String.data))

/-- `addCategoryWithPath(nicename, pathNames)`, depth-budgeted. -/
def addCategoryWithPath (m : List (String × CatInfo)) :
    Nat → String → List String → List CatEntry
  | 0, _, _ => []
  | fuel + 1, nicename, pathNames =>
    match lookupCat m nicename with
    | none => []
    | some info =>
      if info.name = "" then []
      else
        { nicename := nicename, name := info.name,
          slug := joinDash ((pathNames ++ [info.name]).map categorySlug) } ::
        (getDirectChildren m nicename).flatMap
          (fun c => addCategoryWithPath m fuel c.1 (pathNames ++ [info.name]))

/-- `allCategoriesWithSlug`: every category reachable from a root name. -/
def allCategoriesWithSlug (m : List (String × CatInfo)) (fuel : Nat) : List CatEntry :=
  (topLevelCats m).flatMap (fun name =>
    match lookupStr (nameToNicename m) name with
    | some nicename => addCategoryWithPath m fuel nicename []
    | none => [])

/-- `Set.prototype.add` with insertion order. -/
def addNameOnce (names : List String) (x : String) : List String :=
  if names.contains x then names else names ++ [x]

/-- `getDescendantNames`'s inner `add`, depth-budgeted: `none` means the
budget ran out, i.e. the source recursion is still descending. -/
def gdnAux (m : List (String × CatInfo)) :
    Nat → String → List String → Option (List String)
  | 0, _, _ => none
  | fuel + 1, n, names =>
    match lookupCat m n with
    | none => some names
    | some info =>
      (getDirectChildren m n).foldlM
        (fun acc c => gdnAux m fuel c.1 acc) (addNameOnce names info.name)

/-- `getDescendantNames(nicename)`. -/
def getDescendantNames (m : List (String × CatInfo)) (start : String) (fuel : Nat) :
    Option (List String) :=
  gdnAux m fuel start []

/-- The traversal exhausts every recursion-depth budget: the source function
recurses forever. -/
def gdnDiverges (m : List (String × CatInfo)) (start : String) : Prop :=
  ∀ fuel : Nat, getDescendantNames m start fuel = none

/-- A two-node parent cycle. -/
def cycCats : List (String × CatInfo) :=
  [("a", { name := "A", parentNicename := some "b" }),
   ("b", { name := "B", parentNicename := some "a" })]

/-- A two-node forest: root Travel with child Brazil. -/
def travelCats : List (String × CatInfo) :=
  [("travel", { name := "Travel", parentNicename := none }),
   ("brazil", { name := "Brazil", parentNicename := some "travel" })]

lemma gdnAux_cyc_none : ∀ (fuel : Nat) (n : String), n = "a" ∨ n = "b" →
    ∀ names, gdnAux cycCats fuel n names = none := by
  intro fuel
  induction fuel with
  | zero =>
    intro n _ names
    rfl
  | succ f IH =>
    rintro n (rfl | rfl) names
    · have hred : gdnAux cycCats (f + 1) "a" names
          = (gdnAux cycCats f "b" (addNameOnce names "A")).bind some := rfl
      rw [hred, IH "b" (Or.inr rfl)]
      rfl
    · have hred : gdnAux cycCats (f + 1) "b" names
          = (gdnAux cycCats f "a" (addNameOnce names "B")).bind some := rfl
      rw [hred, IH "a" (Or.inl rfl)]
      rfl

/-- **C6 counterexample.** `getDescendantNames` has no visited-set guard: on
the two-node parent cycle the traversal exhausts every recursion-depth
budget, i.e. the source recursion never returns, instead of treating the
revisited node as already expanded. -/
theorem descendant_traversal_diverges_on_cycle : gdnDiverges cycCats "a" :=
  fun fuel => gdnAux_cyc_none fuel "a" (Or.inl rfl) []

/-- **C6 (amended).** The descendant-name traversal carries no visited-set
guard: when the parent relation contains a cycle reachable from the start
node the recursion never terminates (every depth budget is exhausted), while
on forest inputs it terminates and yields the expected finite name set. -/
theorem descendant_traversal_guardless :
    gdnDiverges cycCats "a" ∧
    getDescendantNames travelCats "travel" 3 = some ["Travel", "Brazil"] :=
  ⟨fun fuel => gdnAux_cyc_none fuel "a" (Or.inl rfl) [], by decide⟩

/-! ### Dangling parents -/

/-- **C3 counterexample.** A single node whose declared parent `ghost` does
not exist in the input set: it is not reclassified as a root (the computed
root set is empty) and it is dropped from the category listing entirely. -/
theorem dangling_parent_not_reclassified :
    topLevelNicenames (buildCatMap [("child", "Child", "ghost")]) = [] ∧
    allCategoriesWithSlug (buildCatMap [("child", "Child", "ghost")]) 5 = [] := by
  constructor <;> decide

lemma lookupCat_mem {m : List (String × CatInfo)} {k : String} {info : CatInfo}
    (h : lookupCat m k = some info) : (k, info) ∈ m := by
  unfold lookupCat at h
  obtain ⟨e, he, hmap⟩ := Option.map_eq_some'.mp h
  have hmem := List.mem_of_find?_eq_some he
  have hkey : e.1 = k := by simpa using List.find?_some he
  cases e with
  | mk a b =>
    cases hkey
    cases hmap
    exact hmem

lemma nameToNicename_sound {m : List (String × CatInfo)} {name nn : String}
    (h : lookupStr (nameToNicename m) name = some nn) :
    ∃ info : CatInfo, (nn, info) ∈ m ∧ info.name = name := by
  suffices general : ∀ (l : List (String × CatInfo)) (acc : List (String × String)),
      (∀ e ∈ acc, ∃ info : CatInfo, (e.2, info) ∈ m ∧ info.name = e.1) →
      (∀ t ∈ l, t ∈ m) →
      ∀ e ∈ l.foldl (fun acc e => if e.2.name = "" then acc else upsertStr acc e.2.name e.1) acc,
        ∃ info : CatInfo, (e.2, info) ∈ m ∧ info.name = e.1 by
    unfold lookupStr at h
    obtain ⟨e, he, hmap⟩ := Option.map_eq_some'.mp h
    have hmem := List.mem_of_find?_eq_some he
    have hkey : e.1 = name := by simpa using List.find?_some he
    have hgen := general m [] (by simp) (fun t ht => ht) e (by
      unfold nameToNicename at hmem
      exact hmem)
    obtain ⟨info, hinfo, hname⟩ := hgen
    exact ⟨info, by rw [← hmap]; exact hinfo, by rw [← hkey]; exact hname⟩
  intro l
  induction l with
  | nil =>
    intro acc hacc _ e he
    exact hacc e he
  | cons t ts IH =>
    intro acc hacc hl e he
    rw [List.foldl_cons] at he
    refine IH _ ?_ (fun u hu => hl u (List.mem_cons_of_mem t hu)) e he
    intro u hu
    by_cases hn : t.2.name = ""
    · rw [if_pos hn] at hu
      exact hacc u hu
    · rw [if_neg hn] at hu
      unfold upsertStr at hu
      by_cases hc : (acc.any fun e => e.1 == t.2.name) = true
      · rw [if_pos hc] at hu
        obtain ⟨v, hv, hveq⟩ := List.mem_map.mp hu
        by_cases hk : (v.1 == t.2.name) = true
        · rw [if_pos hk] at hveq
          refine hveq ▸ ⟨t.2, ?_, rfl⟩
          exact hl t (List.mem_cons_self t ts)
        · rw [if_neg hk] at hveq
          exact hveq ▸ hacc v hv
      · rw [if_neg hc] at hu
        rcases List.mem_append.mp hu with h1 | h1
        · exact hacc u h1
        · have hu2 : u = (t.2.name, t.1) := List.mem_singleton.mp h1
          refine hu2 ▸ ⟨t.2, ?_, rfl⟩
          exact hl t (List.mem_cons_self t ts)

lemma mem_addCat {m : List (String × CatInfo)} :
    ∀ (fuel : Nat) (n : String) (path : List String) (e : CatEntry),
      e ∈ addCategoryWithPath m fuel n path →
      e.nicename = n ∨
        ∃ q ∈ m, q.1 = e.nicename ∧ ∃ r ∈ m, q.2.parentNicename = some r.1
  | 0, _, _, _, h => by simp [addCategoryWithPath] at h
  | fuel + 1, n, path, e, h => by
    unfold addCategoryWithPath at h
    cases hl : lookupCat m n with
    | none =>
      rw [hl] at h
      simp at h
    | some info =>
      rw [hl] at h
      dsimp only at h
      by_cases hname : info.name = ""
      · rw [if_pos hname] at h
        simp at h
      · rw [if_neg hname] at h
        rcases List.mem_cons.mp h with h1 | h1
        · left
          rw [h1]
        · obtain ⟨c, hc, he⟩ := List.mem_flatMap.mp h1
          have hcm := List.mem_filter.mp hc
          rcases mem_addCat fuel c.1 _ e he with h2 | h2
          · right
            refine ⟨c, hcm.1, h2.symm, (n, info), lookupCat_mem hl, ?_⟩
            simpa using hcm.2
          · exact Or.inr h2

/-- **C3 (amended).** The root set consists only of nodes whose parent field
is null: a node whose declared parent is absent from the input set is *not*
reclassified as a root, and (as long as no root shares its display name) it
is dropped from the category traversal entirely; the run itself does not
abort — the node is silently unreachable. -/
theorem dangling_parent_dropped :
    ∀ (m : List (String × CatInfo)) (k p : String) (fuel : Nat),
      (∀ e ∈ m, e.1 = k → e.2.parentNicename = some p) →
      (∀ e ∈ m, e.1 ≠ p) →
      (∀ e ∈ m, e.1 = k → e.2.name ∉ topLevelCats m) →
      k ∉ topLevelNicenames m ∧
      ∀ e ∈ allCategoriesWithSlug m fuel, e.nicename ≠ k := by
  intro m k p fuel hparent hdangling hnames
  constructor
  · intro hk
    unfold topLevelNicenames at hk
    obtain ⟨e, he, hek⟩ := List.mem_map.mp hk
    have hem := List.mem_filter.mp he
    have hsome : e.2.parentNicename = some p := hparent e hem.1 hek
    have : e.2.parentNicename.isNone = true := hem.2
    rw [hsome] at this
    simp at this
  · intro e he hek
    unfold allCategoriesWithSlug at he
    obtain ⟨name, hn, he2⟩ := List.mem_flatMap.mp he
    cases hls : lookupStr (nameToNicename m) name with
    | none =>
      rw [hls] at he2
      simp at he2
    | some nn =>
      rw [hls] at he2
      rcases mem_addCat fuel nn [] e he2 with h1 | h1
      · obtain ⟨info, hbind, hiname⟩ := nameToNicename_sound hls
        have hnk : nn = k := by rw [← h1, hek]
        have : (k, info) ∈ m := hnk ▸ hbind
        exact hnames (k, info) this rfl (hiname ▸ hn)
      · obtain ⟨q, hqm, hqk, r, hrm, hqp⟩ := h1
        have hq2 : q.2.parentNicename = some p := hparent q hqm (by rw [hqk, hek])
        rw [hq2] at hqp
        injection hqp with hrp
        exact hdangling r hrm hrp.symm

/-- Witness for `dangling_parent_dropped` at the concrete dangling input. -/
theorem dangling_parent_dropped_witness :
    "child" ∉ topLevelNicenames (buildCatMap [("child", "Child", "ghost")]) ∧
    ∀ e ∈ allCategoriesWithSlug (buildCatMap [("child", "Child", "ghost")]) 5,
      e.nicename ≠ "child" :=
  dangling_parent_dropped (buildCatMap [("child", "Child", "ghost")]) "child" "ghost" 5
    (by decide) (by decide) (by decide)

/-! ### Path-identifier uniqueness -/

/-- Four categories: roots named `"x y"` and `"x-y"` (both of which
normalize to the slug `x-y`), each with a child named `"c"`. -/
def collideMap : List (String × CatInfo) :=
  buildCatMap [("r1", "x y", ""), ("r2", "x-y", ""), ("c1", "c", "r1"), ("c2", "c", "r2")]

/-- **C4 counterexample.** Two distinct nodes (`c1` and `c2`) that share the
display name `"c"` under different parents receive the *same* path
identifier `x-y-c`, because the hyphen-join of normalized names is not
injective: the parents' names `"x y"` and `"x-y"` both slug to `x-y`.
Computed path identifiers are therefore not pairwise distinct. -/
theorem path_identifiers_collide :
    allCategoriesWithSlug collideMap 4
      = [CatEntry.mk "r1" "x y" "x-y", CatEntry.mk "c1" "c" "x-y-c",
         CatEntry.mk "r2" "x-y" "x-y", CatEntry.mk "c2" "c" "x-y-c"] := by
  rfl

lemma dashfree_append_eq : ∀ (x z u v : List Char), '-' ∉ x → '-' ∉ z →
    x ++ '-' :: u = z ++ '-' :: v → x = z ∧ u = v
  | [], [], u, v, _, _, h => by
    simpa using h
  | [], c :: z', u, v, _, hz, h => by
    simp only [List.nil_append, List.cons_append, List.cons.injEq] at h
    exact absurd (h.1 ▸ List.mem_cons_self c z') hz
  | a :: x', [], u, v, hx, _, h => by
    simp only [List.nil_append, List.cons_append, List.cons.injEq] at h
    exact absurd (h.1 ▸ List.mem_cons_self a x') hx
  | a :: x', c :: z', u, v, hx, hz, h => by
    simp only [List.cons_append, List.cons.injEq] at h
    obtain ⟨h1, h2⟩ := dashfree_append_eq x' z' u v
      (fun hm => hx (List.mem_cons_of_mem a hm)) (fun hm => hz (List.mem_cons_of_mem c hm)) h.2
    exact ⟨by rw [h.1, h1], h2⟩

lemma dash_mem_join (x u : List Char) : '-' ∈ x ++ '-' :: u :=
  List.mem_append.mpr (Or.inr (List.mem_cons_self '-' u))

lemma joinDashChars_inj : ∀ (l1 l2 : List (List Char)),
    (∀ x ∈ l1, x ≠ [] ∧ '-' ∉ x) → (∀ x ∈ l2, x ≠ [] ∧ '-' ∉ x) →
    joinDashChars l1 = joinDashChars l2 → l1 = l2
  | [], [], _, _, _ => rfl
  | [], [y], _, h2, h => by
    have hy := (h2 y (List.mem_cons_self y [])).1
    simp only [joinDashChars] at h
    exact absurd h.symm hy
  | [], y :: z :: r, _, h2, h => by
    simp only [joinDashChars] at h
    cases hy : y ++ '-' :: joinDashChars (z :: r) with
    | nil => simpa using congrArg List.length hy
    | cons a t => rw [hy] at h; exact absurd h.symm (List.cons_ne_nil a t)
  | [x], [], h1, _, h => by
    have hx := (h1 x (List.mem_cons_self x [])).1
    simp only [joinDashChars] at h
    exact absurd h hx
  | x :: z :: r, [], h1, _, h => by
    simp only [joinDashChars] at h
    exact absurd (congrArg List.length h) (by simp)
  | [x], [y], _, _, h => by
    simp only [joinDashChars] at h
    rw [h]
  | [x], y :: z :: r, h1, h2, h => by
    simp only [joinDashChars] at h
    have hdash : '-' ∈ x := h ▸ dash_mem_join y (joinDashChars (z :: r))
    exact absurd hdash (h1 x (List.mem_cons_self x [])).2
  | x :: z :: r, [y], h1, h2, h => by
    simp only [joinDashChars] at h
    have hdash : '-' ∈ y := h ▸ dash_mem_join x (joinDashChars (z :: r))
    exact absurd hdash (h2 y (List.mem_cons_self y [])).2
  | x :: x2 :: r1, y :: y2 :: r2, h1, h2, h => by
    simp only [joinDashChars] at h
    obtain ⟨hxy, hrest⟩ := dashfree_append_eq x y _ _
      (h1 x (List.mem_cons_self x _)).2 (h2 y (List.mem_cons_self y _)).2 h
    have := joinDashChars_inj (x2 :: r1) (y2 :: r2)
      (fun a ha => h1 a (List.mem_cons_of_mem x ha))
      (fun a ha => h2 a (List.mem_cons_of_mem y ha)) hrest
    rw [hxy, this]

lemma string_data_injective : Function.Injective String.data := by
  intro a b hab
  cases a
  cases b
  exact congrArg String.mk hab

lemma joinDash_inj {l1 l2 : List String}
    (h1 : ∀ s ∈ l1, s ≠ "" ∧ '-' ∉ s.data) (h2 : ∀ s ∈ l2, s ≠ "" ∧ '-' ∉ s.data)
    (h : joinDash l1 = joinDash l2) : l1 = l2 := by
  unfold joinDash at h
  have hchars : joinDashChars (l1.map String.data) = joinDashChars (l2.map String.data) := by
    have := congrArg String.data h
    simpa using this
  have hmaps := joinDashChars_inj (l1.map String.data) (l2.map String.data)
    (by
      intro x hx
      obtain ⟨s, hs, rfl⟩ := List.mem_map.mp hx
      refine ⟨?_, (h1 s hs).2⟩
      intro hnil
      exact (h1 s hs).1 (string_data_injective (by simpa using hnil)))
    (by
      intro x hx
      obtain ⟨s, hs, rfl⟩ := List.mem_map.mp hx
      refine ⟨?_, (h2 s hs).2⟩
      intro hnil
      exact (h2 s hs).1 (string_data_injective (by simpa using hnil)))
    hchars
  exact (List.map_injective_iff.mpr string_data_injective) hmaps

/-- **C4 (amended).** Path identifiers are the hyphen-join of the normalized
display names down from the root (`slug = joinDash (path.map categorySlug)`
in `addCategoryWithPath`).  They are pairwise distinct only for nodes whose
normalized-name sequences differ and whose normalized names are nonempty and
hyphen-free — in particular two nodes sharing a display name under roots
with distinct hyphen-free slugs (e.g. Travel/Brazil vs Food/Brazil) do get
distinct identifiers.  When a normalized name may contain a hyphen (a name
with an interior space or hyphen) the join is not injective and distinct
nodes can collide, as the counterexample shows. -/
theorem path_identifiers_distinct_when_hyphen_free :
    ∀ (p1 p2 : List String),
      (∀ s ∈ p1, categorySlug s ≠ "" ∧ '-' ∉ (categorySlug s).data) →
      (∀ s ∈ p2, categorySlug s ≠ "" ∧ '-' ∉ (categorySlug s).data) →
      p1.map categorySlug ≠ p2.map categorySlug →
      joinDash (p1.map categorySlug) ≠ joinDash (p2.map categorySlug) := by
  intro p1 p2 h1 h2 hne hcontra
  apply hne
  apply joinDash_inj ?_ ?_ hcontra
  · intro s hs
    obtain ⟨t, ht, rfl⟩ := List.mem_map.mp hs
    exact h1 t ht
  · intro s hs
    obtain ⟨t, ht, rfl⟩ := List.mem_map.mp hs
    exact h2 t ht

/-- Witness for `path_identifiers_distinct_when_hyphen_free`: the spec's own
example, a child `Brazil` under root `Travel` versus a child `Brazil` under
root `Food`. -/
theorem path_identifiers_distinct_witness :
    joinDash (["Travel", "Brazil"].map categorySlug)
      ≠ joinDash (["Food", "Brazil"].map categorySlug) :=
  path_identifiers_distinct_when_hyphen_free ["Travel", "Brazil"] ["Food", "Brazil"]
    (by decide) (by decide) (by decide)

/-! ## Legacy identifier resolver (rewrite-wp-links.js)

Lengths are code-point counts, which agree with JS UTF-16 lengths on the
BMP strings this site uses. -/

/-- The per-character part of `normalizeForMatch`: wave dash / fullwidth
tilde / ideographic comma to hyphen, fullwidth ASCII (FF01–FF5E, which
includes the fullwidth digits the next, redundant step maps again) to
standard ASCII, circled digits ①–⑤ to plain digits. -/
def normChar (c : Char) : Char :=
  let c1 := if c.toNat = 0xFF5E then '-' else c
  let c2 := if c1.toNat = 0x301C then '-' else c1
  let c3 := if c2.toNat = 0x3001 then '-' else c2
  let c4 := if 0xFF01 ≤ c3.toNat ∧ c3.toNat ≤ 0xFF5E then Char.ofNat (c3.toNat - 0xFEE0) else c3
  let c5 := if 0xFF10 ≤ c4.toNat ∧ c4.toNat ≤ 0xFF19 then Char.ofNat (c4.toNat - 0xFEE0) else c4
  if c5.toNat = 0x2460 then '1'
  else if c5.toNat = 0x2461 then '2'
  else if c5.toNat = 0x2462 then '3'
  else if c5.toNat = 0x2463 then '4'
  else if c5.toNat = 0x2464 then '5'
  else c5

/-- `normalizeForMatch`: the per-character maps, then whitespace runs to
`-`, hyphen runs collapsed, surrounding whitespace stripped. -/
def normalizeForMatchChars (l : List Char) : List Char :=
  trimWs (squashDash false (squashWs false (l.map normChar)))

def normalizeForMatch (s : String) : String :=
  String.mk (normalizeForMatchChars s.data)

def isPrefixOfChars : List Char → List Char → Bool
  | [], _ => true
  | _ :: _, [] => false
  | a :: as, b :: bs => a == b && isPrefixOfChars as bs

/-- `a.startsWith(b)`. -/
def startsWithStr (a b : String) : Bool := isPrefixOfChars b.data a.data

def containsChars : List Char → List Char → Bool
  | [], sub => sub.isEmpty
  | b :: rest, sub => isPrefixOfChars sub (b :: rest) || containsChars rest sub

/-- `a.includes(b)`. -/
def includesStr (a b : String) : Bool := containsChars a.data b.data

/-- `replace(digit-runs, '')`: drop every ASCII digit. -/
def stripDigits (s : String) : String :=
  String.mk (s.data.filter (fun c => !(('0' ≤ c) && (c ≤ '9'))))

/-- Strip `?` runs and `!` runs, then collapse hyphen runs. -/
def cleanPunct (s : String) : String :=
  String.mk (squashDash false
    ((s.data.filter (fun c => !(c == '?'))).filter (fun c => !(c == '!'))))

/-- `findStaticSlug`, instrumented with the 1-based index of the cascade
stage that produced the match: 1 exact, 2 script-normalized equality,
3 script-normalized prefix, 4 substring (length ≥ 8 only), 5 digit-stripped,
6 digit-and-punctuation-stripped. -/
def findStaticSlugStaged (w : Option String) (staticSlugs : List String) :
    Option (String × Nat) :=
  match w with
  | none => none
  | some w =>
    if w = "" then none
    else if staticSlugs.contains w then some (w, 1)
    else
      let n := normalizeForMatch w
      match staticSlugs.find? (fun slug => normalizeForMatch slug == n) with
      | some slug => some (slug, 2)
      | none =>
      match staticSlugs.find? (fun slug =>
          startsWithStr (normalizeForMatch slug) n ||
          startsWithStr n (normalizeForMatch slug)) with
      | some slug => some (slug, 3)
      | none =>
      match (if 8 ≤ w.data.length then
          staticSlugs.find? (fun slug =>
            includesStr slug w || includesStr w slug ||
            includesStr (normalizeForMatch slug) n ||
            includesStr n (normalizeForMatch slug))
        else none) with
      | some slug => some (slug, 4)
      | none =>
      let nNoDigits := stripDigits n
      match staticSlugs.find? (fun slug =>
          let sn := stripDigits (normalizeForMatch slug)
          sn == nNoDigits || startsWithStr sn nNoDigits || startsWithStr nNoDigits sn) with
      | some slug => some (slug, 5)
      | none =>
      let nClean := cleanPunct nNoDigits
      match staticSlugs.find? (fun slug =>
          let sn := cleanPunct (stripDigits (normalizeForMatch slug))
          sn == nClean || startsWithStr sn nClean || startsWithStr nClean sn) with
      | some slug => some (slug, 6)
      | none => none

/-- `findStaticSlug` itself: the staged cascade without the stage number. -/
def findStaticSlug (w : Option String) (staticSlugs : List String) : Option String :=
  (findStaticSlugStaged w staticSlugs).map Prod.fst

/-- One hex digit of a `%HH` escape. -/
def hexVal (c : Char) : Option Nat :=
  if '0' ≤ c ∧ c ≤ '9' then some (c.toNat - 48)
  else if 'A' ≤ c ∧ c ≤ 'F' then some (c.toNat - 55)
  else if 'a' ≤ c ∧ c ≤ 'f' then some (c.toNat - 87)
  else none

/-- Split a string into plain characters and `%HH` bytes; `none` on a
malformed escape (JS `decodeURIComponent` throws there). -/
def pctTokenize : List Char → Option (List (Sum Char Nat))
  | [] => some []
  | '%' :: h1 :: h2 :: rest =>
    match hexVal h1, hexVal h2 with
    | some a, some b =>
      match pctTokenize rest with
      | some ts => some (Sum.inr (a * 16 + b) :: ts)
      | none => none
    | _, _ => none
  | '%' :: _ => none
  | c :: rest =>
    match pctTokenize rest with
    | some ts => some (Sum.inl c :: ts)
    | none => none

/-- UTF-8-decode the byte tokens, passing plain characters through;
`none` on an invalid, overlong or surrogate sequence. -/
def decodeTokens : List (Sum Char Nat) → Option (List Char)
  | [] => some []
  | Sum.inl c :: rest =>
    match decodeTokens rest with
    | some tail => some (c :: tail)
    | none => none
  | Sum.inr b :: rest =>
    if b < 0x80 then
      match decodeTokens rest with
      | some tail => some (Char.ofNat b :: tail)
      | none => none
    else if b < 0xC2 then none
    else if b < 0xE0 then
      match rest with
      | Sum.inr b1 :: rest' =>
        if 0x80 ≤ b1 ∧ b1 < 0xC0 then
          match decodeTokens rest' with
          | some tail => some (Char.ofNat ((b - 0xC0) * 64 + (b1 - 0x80)) :: tail)
          | none => none
        else none
      | _ => none
    else if b < 0xF0 then
      match rest with
      | Sum.inr b1 :: Sum.inr b2 :: rest' =>
        if 0x80 ≤ b1 ∧ b1 < 0xC0 ∧ 0x80 ≤ b2 ∧ b2 < 0xC0 then
          let cp := (b - 0xE0) * 4096 + (b1 - 0x80) * 64 + (b2 - 0x80)
          if 0x800 ≤ cp ∧ ¬(0xD800 ≤ cp ∧ cp ≤ 0xDFFF) then
            match decodeTokens rest' with
            | some tail => some (Char.ofNat cp :: tail)
            | none => none
          else none
        else none
      | _ => none
    else if b < 0xF5 then
      match rest with
      | Sum.inr b1 :: Sum.inr b2 :: Sum.inr b3 :: rest' =>
        if 0x80 ≤ b1 ∧ b1 < 0xC0 ∧ 0x80 ≤ b2 ∧ b2 < 0xC0 ∧ 0x80 ≤ b3 ∧ b3 < 0xC0 then
          let cp := (b - 0xF0) * 262144 + (b1 - 0x80) * 4096 + (b2 - 0x80) * 64 + (b3 - 0x80)
          if 0x10000 ≤ cp ∧ cp ≤ 0x10FFFF then
            match decodeTokens rest' with
            | some tail => some (Char.ofNat cp :: tail)
            | none => none
          else none
        else none
      | _ => none
    else none

/-- `decodeURIComponent` on the code-point level. -/
def decodeURIComponentChars (l : List Char) : Option (List Char) :=
  match pctTokenize l with
  | some ts => decodeTokens ts
  | none => none

/-- `replace(fullwidth-tilde, '-')` as used in `postSlugFromWpPath`. -/
def waveToDash (c : Char) : Char := if c.toNat = 0xFF5E then '-' else c

def isAsciiDigit (c : Char) : Bool := ('0' ≤ c) && (c ≤ '9')

/-- `postSlugFromWpPath(wpPath)`: split on `/`, drop empty segments, check
the year/month shape, pick the slug segment (skipping a two-digit day),
URL-decode it (falling back to the raw segment when decoding throws), and
normalize tildes and whitespace. -/
def postSlugFromWpPath (wpPath : String) : Option String :=
  let segments := (wpPath.data.splitOn '/').filter (fun s => !s.isEmpty)
  match segments with
  | y :: m :: second :: _ =>
    if y.length ≠ 4 ∨ m.length ≠ 2 then none
    else
      let postSegmentIndex := if second.length = 2 ∧ second.all isAsciiDigit then 3 else 2
      match segments.get? postSegmentIndex with
      | none => none
      | some raw =>
        match decodeURIComponentChars raw with
        | some decoded => some (String.mk (trimWs (squashWs false (decoded.map waveToDash))))
        | none => some (String.mk (trimWs (raw.map waveToDash)))
  | _ => none

/-- `buildUrlToRelative`: the (url → relative path) mapping and the
unmapped leftovers, in input order. -/
def buildUrlToRelative (urlToPath : List (String × String)) (staticSlugs : List String) :
    List (String × String) × List (String × String × Option String) :=
  urlToPath.foldl
    (fun acc up =>
      let wpSlug := postSlugFromWpPath up.2
      match findStaticSlug wpSlug staticSlugs with
      | some slug => (acc.1 ++ [(up.1, "posts/" ++ slug ++ ".html")], acc.2)
      | none => (acc.1, acc.2 ++ [(up.1, up.2, wpSlug)]))
    ([], [])

/-- **C5 counterexample.** For candidate slug `記事名` against the canonical
set `{記事名-2}`, the cascade succeeds at stage 3 (script-normalized prefix
match: `記事名-2` starts with `記事名`), not at stage 5 (the digit-insensitive
step the claim names) — the digit-insensitive strategy is never consulted. -/
theorem kiji_resolved_by_prefix_not_digit :
    findStaticSlugStaged (some "記事名") ["記事名-2"] = some ("記事名-2", 3) ∧
    findStaticSlugStaged (some "記事名") ["記事名-2"] ≠ some ("記事名-2", 5) := by
  constructor <;> decide

/-- **C5 (amended).** The historical path `2012/06/17/記事名` (third segment
exactly two digits, so it is a day and the candidate slug is the fourth
segment) does resolve to the canonical identifier `記事名-2`, but via the
script-normalized *prefix* step of the cascade (stage 3), not the
digit-insensitive step (stage 5). -/
theorem kiji_path_resolves_via_prefix :
    postSlugFromWpPath "2012/06/17/記事名" = some "記事名" ∧
    findStaticSlug (some "記事名") ["記事名-2"] = some "記事名-2" ∧
    findStaticSlugStaged (some "記事名") ["記事名-2"] = some ("記事名-2", 3) := by
  refine ⟨by decide, by decide, by decide⟩

lemma findStaticSlugStaged_mem :
    ∀ (w : Option String) (S : List String) (s : String) (st : Nat),
      findStaticSlugStaged w S = some (s, st) → s ∈ S := by
  intro w S s st h
  unfold findStaticSlugStaged at h
  cases w with
  | none => simp at h
  | some w =>
    dsimp only at h
    by_cases hw : w = ""
    · rw [if_pos hw] at h
      simp at h
    · rw [if_neg hw] at h
      by_cases hc : S.contains w = true
      · rw [if_pos hc] at h
        have hws : w = s := congrArg Prod.fst (Option.some.inj h)
        rw [← hws]
        exact List.mem_of_elem_eq_true hc
      · rw [if_neg hc] at h
        cases h2 : S.find? (fun slug => normalizeForMatch slug == normalizeForMatch w) with
        | some slug =>
          rw [h2] at h
          have hss : slug = s := congrArg Prod.fst (Option.some.inj h)
          exact hss ▸ List.mem_of_find?_eq_some h2
        | none =>
          rw [h2] at h
          cases h3 : S.find? (fun slug =>
              startsWithStr (normalizeForMatch slug) (normalizeForMatch w) ||
              startsWithStr (normalizeForMatch w) (normalizeForMatch slug)) with
          | some slug =>
            rw [h3] at h
            have hss : slug = s := congrArg Prod.fst (Option.some.inj h)
            exact hss ▸ List.mem_of_find?_eq_some h3
          | none =>
            rw [h3] at h
            by_cases hlen : 8 ≤ w.data.length
            · rw [if_pos hlen] at h
              cases h4 : S.find? (fun slug =>
                  includesStr slug w || includesStr w slug ||
                  includesStr (normalizeForMatch slug) (normalizeForMatch w) ||
                  includesStr (normalizeForMatch w) (normalizeForMatch slug)) with
              | some slug =>
                rw [h4] at h
                have hss : slug = s := congrArg Prod.fst (Option.some.inj h)
                exact hss ▸ List.mem_of_find?_eq_some h4
              | none =>
                rw [h4] at h
                cases h5 : S.find? (fun slug =>
                    stripDigits (normalizeForMatch slug) == stripDigits (normalizeForMatch w) ||
                    startsWithStr (stripDigits (normalizeForMatch slug))
                      (stripDigits (normalizeForMatch w)) ||
                    startsWithStr (stripDigits (normalizeForMatch w))
                      (stripDigits (normalizeForMatch slug))) with
                | some slug =>
                  rw [h5] at h
                  have hss : slug = s := congrArg Prod.fst (Option.some.inj h)
                  exact hss ▸ List.mem_of_find?_eq_some h5
                | none =>
                  rw [h5] at h
                  cases h6 : S.find? (fun slug =>
                      cleanPunct (stripDigits (normalizeForMatch slug)) ==
                        cleanPunct (stripDigits (normalizeForMatch w)) ||
                      startsWithStr (cleanPunct (stripDigits (normalizeForMatch slug)))
                        (cleanPunct (stripDigits (normalizeForMatch w))) ||
                      startsWithStr (cleanPunct (stripDigits (normalizeForMatch w)))
                        (cleanPunct (stripDigits (normalizeForMatch slug)))) with
                  | some slug =>
                    rw [h6] at h
                    have hss : slug = s := congrArg Prod.fst (Option.some.inj h)
                    exact hss ▸ List.mem_of_find?_eq_some h6
                  | none =>
                    rw [h6] at h
                    simp at h
            · rw [if_neg hlen] at h
              cases h5 : S.find? (fun slug =>
                  stripDigits (normalizeForMatch slug) == stripDigits (normalizeForMatch w) ||
                  startsWithStr (stripDigits (normalizeForMatch slug))
                    (stripDigits (normalizeForMatch w)) ||
                  startsWithStr (stripDigits (normalizeForMatch w))
                    (stripDigits (normalizeForMatch slug))) with
              | some slug =>
                rw [h5] at h
                have hss : slug = s := congrArg Prod.fst (Option.some.inj h)
                exact hss ▸ List.mem_of_find?_eq_some h5
              | none =>
                rw [h5] at h
                cases h6 : S.find? (fun slug =>
                    cleanPunct (stripDigits (normalizeForMatch slug)) ==
                      cleanPunct (stripDigits (normalizeForMatch w)) ||
                    startsWithStr (cleanPunct (stripDigits (normalizeForMatch slug)))
                      (cleanPunct (stripDigits (normalizeForMatch w))) ||
                    startsWithStr (cleanPunct (stripDigits (normalizeForMatch w)))
                      (cleanPunct (stripDigits (normalizeForMatch slug)))) with
                | some slug =>
                  rw [h6] at h
                  have hss : slug = s := congrArg Prod.fst (Option.some.inj h)
                  exact hss ▸ List.mem_of_find?_eq_some h6
                | none =>
                  rw [h6] at h
                  simp at h

/-- **C10.** `findStaticSlug` never fabricates an identifier: its result is
either null or an element of the canonical identifier set, and consequently
every entry of the emitted redirect mapping targets `posts/<s>.html` for a
canonical `s`. -/
theorem resolver_targets_exist :
    (∀ (w : Option String) (S : List String) (s : String),
      findStaticSlug w S = some s → s ∈ S) ∧
    (∀ (ups : List (String × String)) (S : List String) (url rel : String),
      (url, rel) ∈ (buildUrlToRelative ups S).1 →
      ∃ s ∈ S, rel = "posts/" ++ s ++ ".html") := by
  have part1 : ∀ (w : Option String) (S : List String) (s : String),
      findStaticSlug w S = some s → s ∈ S := by
    intro w S s h
    unfold findStaticSlug at h
    obtain ⟨⟨s', st⟩, hstaged, hmap⟩ := Option.map_eq_some'.mp h
    cases hmap
    exact findStaticSlugStaged_mem w S s' st hstaged
  refine ⟨part1, ?_⟩
  intro ups S url rel hmem
  suffices general : ∀ (l : List (String × String))
      (acc : List (String × String) × List (String × String × Option String)),
      (∀ u r, (u, r) ∈ acc.1 → ∃ s ∈ S, r = "posts/" ++ s ++ ".html") →
      ∀ u r, (u, r) ∈ (l.foldl
        (fun acc up =>
          match findStaticSlug (postSlugFromWpPath up.2) S with
          | some slug => (acc.1 ++ [(up.1, "posts/" ++ slug ++ ".html")], acc.2)
          | none => (acc.1, acc.2 ++ [(up.1, up.2, postSlugFromWpPath up.2)])) acc).1 →
      ∃ s ∈ S, r = "posts/" ++ s ++ ".html" by
    exact general ups ([], []) (by simp) url rel hmem
  intro l
  induction l with
  | nil =>
    intro acc hacc u r hur
    exact hacc u r hur
  | cons up rest IH =>
    intro acc hacc u r hur
    rw [List.foldl_cons] at hur
    refine IH _ ?_ u r hur
    intro u' r' hur'
    cases hfind : findStaticSlug (postSlugFromWpPath up.2) S with
    | some slug =>
      rw [hfind] at hur'
      rcases List.mem_append.mp hur' with h1 | h1
      · exact hacc u' r' h1
      · have := List.mem_singleton.mp h1
        have hr : r' = "posts/" ++ slug ++ ".html" := congrArg Prod.snd this
        exact ⟨slug, part1 _ S slug hfind, hr⟩
    | none =>
      rw [hfind] at hur'
      exact hacc u' r' hur'

/-- Witness for `resolver_targets_exist` at concrete inputs (the spec's
exact-match scenario `2013/06/sample-post` ↦ `sample-post`). -/
theorem resolver_targets_exist_witness :
    "記事名-2" ∈ ["記事名-2"] ∧
    ∃ s ∈ ["sample-post"], "posts/sample-post.html" = "posts/" ++ s ++ ".html" :=
  ⟨resolver_targets_exist.1 (some "記事名") ["記事名-2"] "記事名-2" (by decide),
   resolver_targets_exist.2 [("u", "2013/06/sample-post")] ["sample-post"]
    "u" "posts/sample-post.html"
    (by
      have h : (buildUrlToRelative [("u", "2013/06/sample-post")] ["sample-post"]).1
          = [("u", "posts/sample-post.html")] := rfl
      rw [h]
      exact List.mem_singleton.mpr rfl)⟩

end Futari
